import Mathlib

/-
  Verification of the lpci/lpcraft CI pipeline runner against its
  natural-language specification.

  The definitions below are shallow embeddings of the Python source:
    - src/lpcraft/commands/run.py   (pipeline executor, artifact I/O)
    - src/lpcraft/config.py         (configuration model)
    - src/lpci/providers/_base.py   (instance naming)
    - src/lpcraft/plugins/plugins.py (plugin registry)
  Python dicts are embedded as ordered association lists, paths as
  component lists with an absolute flag, fallible code as Except/Option.
-/

namespace LpciProof

/-! ## JSON-like values and Python-dict operations -/

/-- A JSON-like value, as stored in configuration mappings and in the
`properties` file (`src/lpcraft/config.py` uses `Dict[str, Any]`). -/
inductive JVal where
  | null : JVal
  | str : String → JVal
  | arr : List JVal → JVal
  | obj : List (String × JVal) → JVal

/-- An ordered string-keyed mapping, embedding a Python `dict` (insertion
ordered, unique keys). -/
abbrev JDict := List (String × JVal)

/-- Lookup in an association list: Python `d[k]` / `k in d`. -/
def dGet {α : Type} : List (String × α) → String → Option α
  | [], _ => none
  | (k2, v) :: rest, k => if k2 = k then some v else dGet rest k

/-- Python `del d[k]` / `d.pop(k, None)`: remove a key. -/
def dDel {α : Type} (d : List (String × α)) (k : String) : List (String × α) :=
  d.filter (fun p => p.1 ≠ k)

/-- Python `d[k] = v`: replace the value in place if the key exists,
otherwise append the new pair at the end. -/
def dSet {α : Type} (d : List (String × α)) (k : String) (v : α) :
    List (String × α) :=
  if (dGet d k).isSome then d.map (fun p => if p.1 = k then (k, v) else p)
  else d ++ [(k, v)]

/-- Python `d1.update(d2)`: existing keys keep their position but take the
value from `d2`; keys new in `d2` are appended in `d2` order. -/
def dUpdate {α : Type} (d1 d2 : List (String × α)) : List (String × α) :=
  d1.map (fun p =>
    match dGet d2 p.1 with
    | some w => (p.1, w)
    | none => p)
  ++ d2.filter (fun p => (dGet d1 p.1).isNone)

/-- Embedding of a Python `for` loop that builds a list and can raise:
apply `f` to each element in order, stopping at the first error. -/
def mapME {ε α β : Type} (f : α → Except ε β) : List α → Except ε (List β)
  | [] => .ok []
  | x :: xs =>
    match f x with
    | .error e => .error e
    | .ok y =>
      match mapME f xs with
      | .error e => .error e
      | .ok ys => .ok (y :: ys)

/-- Embedding of a Python `for` loop that builds a list and can crash:
apply `f` to each element in order, stopping at the first failure. -/
def mapMO {α β : Type} (f : α → Option β) : List α → Option (List β)
  | [] => some []
  | x :: xs =>
    match f x with
    | none => none
    | some y =>
      match mapMO f xs with
      | none => none
      | some ys => some (y :: ys)

/-- Embedding of a Python `for` loop that threads an accumulator and can
crash. -/
def foldMO {α β : Type} (f : β → α → Option β) : β → List α → Option β
  | b, [] => some b
  | b, x :: xs =>
    match f b x with
    | none => none
    | some b2 => foldMO f b2 xs

/-- Embedding of a Python `for` loop that threads an accumulator and can
raise. -/
def foldME {ε α β : Type} (f : β → α → Except ε β) : β → List α → Except ε β
  | b, [] => .ok b
  | b, x :: xs =>
    match f b x with
    | .error e => .error e
    | .ok b2 => foldME f b2 xs

/-! ## Instance naming (src/lpci/providers/_base.py) -/

/-- Characters allowed in a clean LXD instance name: `[A-Za-z0-9-]`
(see `sanitize_lxd_instance_name`). -/
def isCleanChar (c : Char) : Bool :=
  (decide ('A' ≤ c) && decide (c ≤ 'Z'))
    || (decide ('a' ≤ c) && decide (c ≤ 'z'))
    || (decide ('0' ≤ c) && decide (c ≤ '9'))
    || decide (c = '-')

/-- Character-level body of `sanitize_lxd_instance_name`:
`re.sub(r"[^A-Za-z0-9-]", "-", name)` followed by `name[:63]`. -/
def sanitizeChars (cs : List Char) : List Char :=
  (cs.map (fun c => if isCleanChar c then c else '-')).take 63

/-- `sanitize_lxd_instance_name` from `src/lpci/providers/_base.py`:
replace every character outside `[A-Za-z0-9-]` with `-`, then truncate to
63 characters. -/
def sanitize_lxd_instance_name (name : String) : String :=
  String.mk (sanitizeChars name.data)

/-- `Provider.get_instance_name` from `src/lpci/providers/_base.py`:
`lpci-<project_name>-<inode>-<series>-<architecture>`, sanitized.  The
project path enters only through its inode (`project_path.stat().st_ino`),
embedded here as a `Nat` argument. -/
def get_instance_name (project_name : String) (inode : Nat)
    (series architecture : String) : String :=
  sanitize_lxd_instance_name
    ("lpci-" ++ project_name ++ "-" ++ toString inode ++ "-" ++ series
      ++ "-" ++ architecture)

/-! ## Plugin registry and command resolution
(src/lpcraft/plugins/plugins.py, src/lpcraft/commands/run.py) -/

/-- The process-wide plugin registry, reduced to the data the command
resolution consumes: plugin name to its `INTERPOLATES_RUN_COMMAND` flag.
Populated by the `@register` decorators in `src/lpcraft/plugins/plugins.py`:
`tox` and `pyproject-build` inherit `INTERPOLATES_RUN_COMMAND = False` from
`BasePlugin`; `MiniCondaPlugin` sets it to `True`. -/
def PLUGINS : List (String × Bool) :=
  [("tox", false), ("pyproject-build", false), ("miniconda", true)]

/-- `_resolve_runtime_value` from `src/lpcraft/commands/run.py`:
`command_from_config` embeds `getattr(job, job_property)`, `plugin` embeds
`job.plugin`, and `hookResults` embeds the list returned by the pluggy hook
call (first contributor first).  `next(iter(rv), None)` is `head?`. -/
def resolve_runtime_value (plugin : Option String)
    (command_from_config : Option String) (hookResults : List String) :
    Option String :=
  let interpolated_run_command :=
    match plugin with
    | some p =>
      match dGet PLUGINS p with
      | some b => b
      | none => false
    | none => false
  match command_from_config with
  | some c => if interpolated_run_command then hookResults.head? else some c
  | none => hookResults.head?

/-! ## Snap model and installation (src/lpcraft/config.py, run.py) -/

/-- The `Snap` configuration model from `src/lpcraft/config.py`:
`name` required, `channel` defaulting to `latest/stable`, `classic`
defaulting to `False`. -/
structure Snap where
  name : String
  channel : Option String := some "latest/stable"
  classic : Option Bool := some false
deriving DecidableEq

/-- One call to `craft_providers.actions.snap_installer.install_from_store`
as issued by `_run_job` (src/lpcraft/commands/run.py): the snap entry is
passed as `snap_name`, and `channel`/`classic` are the literal arguments of
the call. -/
structure SnapInstallCall where
  snap : Snap
  channel : String
  classic : Bool
deriving DecidableEq

/-- The snap-installation loop of `_run_job`
(src/lpcraft/commands/run.py): for each aggregated snap, install from the
store with `channel="latest/stable"` and `classic=True`. -/
def snap_install_calls (snaps : List Snap) : List SnapInstallCall :=
  snaps.map (fun s => ⟨s, "latest/stable", true⟩)

/-! ## Package repositories (src/lpcraft/config.py) -/

/-- Names of the members of the closed `PackageSuite` enum in
`src/lpcraft/config.py`. -/
def packageSuiteNames : List String := ["bionic", "focal", "jammy"]

/-- Python `PackageSuite[name]`: enum lookup by member name, raising
`KeyError` for anything outside the closed member list. -/
def packageSuiteLookup (s : String) : Option String :=
  if s ∈ packageSuiteNames then some s else none

/-- Runtime value of the `trusted` field after pydantic validation: left as
the boolean default `False` when the key is absent (the `convert_trusted`
validator only runs on provided values), or the string produced by
`convert_trusted` when the key was given. -/
inductive TrustedVal where
  | bool (b : Bool)
  | str (s : String)
deriving DecidableEq

/-- Python truthiness of the stored `trusted` value, as tested by
`if self.trusted:` in `sources_list_lines`. -/
def TrustedVal.truthy : TrustedVal → Bool
  | .bool b => b
  | .str s => !s.isEmpty

/-- Rendering of the stored `trusted` value inside an f-string. -/
def TrustedVal.render : TrustedVal → String
  | .bool b => if b then "True" else "False"
  | .str s => s

/-- The `convert_trusted` validator (`v and "yes" or "no"`). -/
def convert_trusted (v : Bool) : String := if v then "yes" else "no"

/-- Field parsing for `trusted`: `none` means the configuration did not set
the key (default kept, validator skipped); `some b` means it was set. -/
def parseTrusted (raw : Option Bool) : TrustedVal :=
  match raw with
  | none => .bool false
  | some b => .str (convert_trusted b)

/-- The `PackageRepository` model of `src/lpcraft/config.py`, restricted to
the fields `sources_list_lines` and suite validation consume, each held as
its rendered string form (`format.value`, `suite.value`, component names,
`str(self.url)`). -/
structure PackageRepository where
  formats : List String
  components : List String
  suites : List String
  url : String
  trusted : TrustedVal
deriving DecidableEq

/-- `PackageRepository.sources_list_lines` from `src/lpcraft/config.py`:
one line per format, then per suite; a `[trusted=...]` clause right after
the format exactly when the stored `trusted` value is truthy. -/
def sources_list_lines (r : PackageRepository) : List String :=
  r.formats.flatMap (fun format =>
    r.suites.map (fun suite =>
      if r.trusted.truthy then
        format ++ " [trusted=" ++ r.trusted.render ++ "] " ++ r.url ++ " "
          ++ suite ++ " " ++ String.intercalate " " r.components
      else
        format ++ " " ++ r.url ++ " " ++ suite ++ " "
          ++ String.intercalate " " r.components))

/-- `Job.validate_package_repositories` from `src/lpcraft/config.py`: every
repository whose `suites` is falsy gets `suites = [PackageSuite[series]]`;
a series outside the closed enum raises `KeyError` at that point.  An
unset `suites` (None) and an empty list are both falsy and are embedded as
the empty list. -/
def validate_package_repositories (series : String)
    (v : List PackageRepository) : Except String (List PackageRepository) :=
  mapME (fun r =>
    if r.suites.isEmpty then
      match packageSuiteLookup series with
      | some s => .ok { r with suites := [s] }
      | none => .error ("KeyError: " ++ series)
    else .ok r) v

/-- Construction of a `PackageRepository` from raw configuration values, as
far as the `trusted` field is concerned (`some b` iff the key was present). -/
def mkRepo (formats components suites : List String) (url : String)
    (trustedRaw : Option Bool) : PackageRepository :=
  ⟨formats, components, suites, url, parseTrusted trustedRaw⟩

/-- Modelled from the spec: the sources-list line the specification
describes, `<format> [trusted=<yes|no>]? <url> <suite> <component...>`,
with the trusted clause present exactly when the configuration set the
`trusted` key. -/
def specSourcesLine (trustedRaw : Option Bool) (url : String)
    (components : List String) (format suite : String) : String :=
  match trustedRaw with
  | some b =>
    format ++ " [trusted=" ++ (if b then "yes" else "no") ++ "] " ++ url
      ++ " " ++ suite ++ " " ++ String.intercalate " " components
  | none =>
    format ++ " " ++ url ++ " " ++ suite ++ " "
      ++ String.intercalate " " components

/-- The `_Identifier` pattern `^[a-z0-9][a-z0-9+._-]+$` from
`src/lpcraft/config.py`. -/
def isIdentChar (c : Char) : Bool :=
  (decide ('a' ≤ c) && decide (c ≤ 'z'))
    || (decide ('0' ≤ c) && decide (c ≤ '9'))
    || decide (c = '+') || decide (c = '.') || decide (c = '_')
    || decide (c = '-')

/-- Start character of an `_Identifier`: `[a-z0-9]`. -/
def isIdentStart (c : Char) : Bool :=
  (decide ('a' ≤ c) && decide (c ≤ 'z'))
    || (decide ('0' ≤ c) && decide (c ≤ '9'))

/-- Decision procedure for the `_Identifier` regex
`^[a-z0-9][a-z0-9+._-]+$`. -/
def isIdentifier (s : String) : Bool :=
  match s.data with
  | [] => false
  | c :: rest => isIdentStart c && !rest.isEmpty && rest.all isIdentChar

/-! ## Matrix expansion (src/lpcraft/config.py) -/

/-- View of a `JVal` as a raw mapping, as Python's `dict.update` demands of
each matrix item. -/
def asObj : JVal → Option JDict
  | .obj d => some d
  | _ => none

/-- `_expand_job_values` from `src/lpcraft/config.py`: without a `matrix`
key the raw entry becomes exactly one variant; with one, each matrix item
is overlaid (`dict.update`) on the parent minus the `matrix` key.  `none`
embeds the `TypeError` Python raises when the `matrix` value is not a list
of mappings. -/
def expand_job_values (values : JDict) : Option (List JDict) :=
  match dGet values "matrix" with
  | none => some [values]
  | some (.arr items) =>
    mapMO (fun it =>
      (asObj it).map (fun variant => dUpdate (dDel values "matrix") variant))
      items
  | some _ => none

/-- Expanding a job entry and then expanding each produced variant again,
flattening the results: the double application whose agreement with the
single application the idempotence property asserts. -/
def expand_job_values_twice (values : JDict) : Option (List JDict) :=
  (expand_job_values values).bind (fun vs =>
    (mapMO expand_job_values vs).map List.flatten)

/-! ## License descriptor and output properties
(src/lpcraft/config.py, src/lpcraft/commands/run.py) -/

/-- The `License` model of `src/lpcraft/config.py`: either `spdx` or
`path`, never both (enforced at parse time). -/
structure License where
  spdx : Option String := none
  path : Option String := none

/-- JSON encoding of an optional string: `null` for Python `None`. -/
def jStrOpt : Option String → JVal
  | some s => .str s
  | none => .null

/-- Python `License.dict()`: always both keys, unset one as `None`. -/
def License.dict (lic : License) : List (String × JVal) :=
  [("spdx", jStrOpt lic.spdx), ("path", jStrOpt lic.path)]

/-- The `Output` model of `src/lpcraft/config.py`, with the metadata fields
the executor never reads (`distribute`, `channels`, `expires`) reduced to
their parsed string forms. -/
structure Output where
  paths : Option (List String) := none
  distribute : Option String := none
  channels : Option (List String) := none
  properties : Option JDict := none
  dynamic_properties : Option String := none
  expires : Option Int := none

/-- The `Job` model of `src/lpcraft/config.py`, restricted to the fields
the per-job executor reads. -/
structure Job where
  series : String
  architectures : List String
  run_before : Option String := none
  run : Option String := none
  run_after : Option String := none
  output : Option Output := none
  snaps : Option (List Snap) := none
  packages : Option (List String) := none
  plugin : Option String := none

/-- One iteration of the license-injection loop in `_run_job`
(src/lpcraft/commands/run.py): ensure `properties["license"]` is a dict,
then assign one key of it.  `none` embeds the `TypeError` Python raises
when an existing `license` value is not a dict. -/
def set_license_key (props : JDict) (key : String) (v : JVal) :
    Option JDict :=
  let props :=
    if (dGet props "license").isSome then props
    else props ++ [("license", .obj [])]
  match dGet props "license" with
  | some (.obj d) => some (dSet props "license" (.obj (dSet d key v)))
  | _ => none

/-- The license-injection block of `_run_job` (src/lpcraft/commands/run.py,
the `if config.license:` block): when the root license descriptor is set,
create the variant's `output` and its `properties` if missing and write
every key of `license.dict()` under `properties["license"]`.  The Python
code mutates `job` in place; the state passing returns the job as it is
left after the block. -/
def inject_license (license : Option License) (job : Job) : Option Job :=
  match license with
  | none => some job
  | some lic =>
    let out := job.output.getD {}
    let props := out.properties.getD []
    (foldMO (fun ps kv => set_license_key ps kv.1 kv.2) props lic.dict).map
      (fun ps => { job with output := some { out with properties := some ps } })

/-- Application of parsed dynamic properties in `_copy_output_properties`
(src/lpcraft/commands/run.py): a parsed `KEY=VALUE` sets the key, a bare
`KEY` (value `None` from `dotenv_values`) removes it. -/
def apply_dynamic_properties (props : JDict)
    (dynamicVals : List (String × Option String)) : JDict :=
  dynamicVals.foldl (fun ps kv =>
    match kv.2 with
    | some v => dSet ps kv.1 (.str v)
    | none => dDel ps kv.1) props

/-- `_copy_output_properties` from `src/lpcraft/commands/run.py`, with the
in-container file reading abstracted into the parsed `dotenv_values`
result `dynamicVals`: start from a copy of the static properties and, when
`dynamic_properties` is configured, apply each parsed entry. -/
def copy_output_properties (output : Output)
    (dynamicVals : List (String × Option String)) : JDict :=
  let properties := output.properties.getD []
  match output.dynamic_properties with
  | none => properties
  | some _ => apply_dynamic_properties properties dynamicVals

/-- The end-to-end properties pipeline of `_run_job` for one variant:
license injection (before copy-out) followed by `_copy_output_properties`.
`none` means no properties file is written (no output descriptor) or the
injection crashed. -/
def job_final_properties (license : Option License) (job : Job)
    (dynamicVals : List (String × Option String)) : Option JDict :=
  match inject_license license job with
  | none => none
  | some jobF =>
    match jobF.output with
    | some out => some (copy_output_properties out dynamicVals)
    | none => none

/-! ## Secrets templating and sources.list accumulation
(src/lpcraft/commands/run.py, `_install_apt_packages`) -/

/-- Literal opening brace character. -/
def braceOpen : Char := Char.ofNat 123

/-- Literal closing brace character. -/
def braceClose : Char := Char.ofNat 125

/-- Scan the characters following a double opening brace up to the closing
double brace, returning the placeholder body and the remaining text. -/
def scanVar : List Char → Option (List Char × List Char)
  | [] => none
  | c :: cs =>
    if c = braceClose then
      match cs with
      | c2 :: cs2 =>
        if c2 = braceClose then some ([], cs2)
        else (scanVar cs).map (fun p => (c :: p.1, p.2))
      | [] => none
    else (scanVar cs).map (fun p => (c :: p.1, p.2))

/-- Strip leading and trailing blanks from a placeholder body. -/
def trimChars (cs : List Char) : List Char :=
  ((cs.dropWhile (fun c => c = ' ')).reverse.dropWhile (fun c => c = ' ')).reverse

/-- Fuelled body of the template renderer: replace each Jinja-style
placeholder by its secret value (an undefined name renders as the empty
string, as jinja2's default undefined does). -/
def renderChars (secrets : List (String × String)) : Nat → List Char → List Char
  | 0, cs => cs
  | _ + 1, [] => []
  | fuel + 1, c :: cs =>
    if c = braceOpen ∧ cs.head? = some braceOpen then
      match scanVar cs.tail with
      | some (var, rest) =>
        ((dGet secrets (String.mk (trimChars var))).getD "").data
          ++ renderChars secrets fuel rest
      | none => c :: renderChars secrets fuel cs
    else c :: renderChars secrets fuel cs

/-- Embedding of `Environment(loader=BaseLoader()).from_string(sources)`
followed by `template.render(**secrets)` for the placeholder-substitution
fragment of jinja2 that the sources text uses. -/
def render_template (text : String) (secrets : List (String × String)) :
    String :=
  String.mk (renderChars secrets (text.data.length + 1) text.data)

/-- The sources-accumulation logic of `_install_apt_packages`
(src/lpcraft/commands/run.py): `current` is the `/etc/apt/sources.list`
pulled from the instance; the result is the content pushed back, or `none`
when both repository lists are empty and the file is left untouched. -/
def compute_sources (current : String) (replace pkgRepos : List String)
    (secrets : List (String × String)) : Option String :=
  if !replace.isEmpty || !pkgRepos.isEmpty then
    let sources := current
    let sources :=
      if !replace.isEmpty then String.intercalate "\n" replace ++ "\n"
      else sources
    let sources :=
      if !pkgRepos.isEmpty then
        let s := sources ++ "\n" ++ String.intercalate "\n" pkgRepos
        let s := if !secrets.isEmpty then render_template s secrets else s
        s ++ "\n"
      else sources
    some sources
  else none

/-! ## Pipeline loop (src/lpcraft/commands/run.py, `RunCommand.run`) -/

/-- Python `repr` of a string with the default quote character. -/
def pyStrRepr (s : String) : String := "\x27" ++ s ++ "\x27"

/-- Python `repr` of a list of strings, as interpolated by an f-string. -/
def pyListRepr (xs : List String) : String :=
  "[" ++ String.intercalate ", " (xs.map pyStrRepr) ++ "]"

/-- The aggregated error raised after a failed multi-job stage:
`f"Some jobs in {stage} failed; stopping."`. -/
def combinedStageError (stage : List String) : String :=
  "Some jobs in " ++ pyListRepr stage ++ " failed; stopping."

/-- The inner job loop of `RunCommand.run` for one stage: `runJob` embeds
the whole `try` body for one job name (all its variants).  A failure in a
single-job stage is re-raised unchanged; in a larger stage it only records
`stage_failed`.  Returns the final `stage_failed` flag (or the re-raised
error) together with the job names attempted, in order. -/
def runStageJobs (runJob : String → Except String Unit) (stageLen : Nat) :
    List String → Bool → Except String Bool × List String
  | [], failed => (.ok failed, [])
  | j :: rest, failed =>
    match runJob j with
    | .ok _ =>
      let r := runStageJobs runJob stageLen rest failed
      (r.1, j :: r.2)
    | .error e =>
      if stageLen = 1 then (.error e, [j])
      else
        let r := runStageJobs runJob stageLen rest true
        (r.1, j :: r.2)

/-- The stage loop of `RunCommand.run` (src/lpcraft/commands/run.py):
stages in order; after a stage with `stage_failed` set, raise the combined
error and stop.  Returns the overall outcome and every job name attempted. -/
def run_pipeline (runJob : String → Except String Unit) :
    List (List String) → Except String Unit × List String
  | [] => (.ok (), [])
  | stage :: rest =>
    match runStageJobs runJob stage.length stage false with
    | (.error e, att) => (.error e, att)
    | (.ok failed, att) =>
      if failed then (.error (combinedStageError stage), att)
      else
        let r := run_pipeline runJob rest
        (r.1, att ++ r.2)

/-! ## Path model (pathlib.PurePath / os.path over POSIX paths) -/

/-- A POSIX pure path: an absolute flag and the non-empty, non-dot name
components, as `pathlib.PurePath.parts` stores them (single dots and empty
segments are dropped at parse time, `..` is kept). -/
structure PurePath where
  absolute : Bool
  parts : List String
deriving DecidableEq

/-- Split a character stream on `/` separators. -/
def splitSlashAux (cur : List Char) : List Char → List (List Char)
  | [] => [cur.reverse]
  | c :: cs =>
    if c = '/' then cur.reverse :: splitSlashAux [] cs
    else splitSlashAux (c :: cur) cs

/-- Parse a path string the way `pathlib.PurePath` does: split on `/`,
drop empty and single-dot segments, record whether it was absolute. -/
def parsePath (s : String) : PurePath :=
  ⟨(match s.data with
    | c :: _ => c = '/'
    | [] => false),
    ((splitSlashAux [] s.data).map String.mk).filter
      (fun c => c ≠ "" ∧ c ≠ ".")⟩

/-- `pathlib` `/` operator: an absolute right operand replaces the left
one, a relative one is appended. -/
def pjoin (p q : PurePath) : PurePath :=
  if q.absolute then q else ⟨p.absolute, p.parts ++ q.parts⟩

/-- `PurePath.name`: the final component (empty for the root). -/
def PurePath.name (p : PurePath) : String := (p.parts.getLast?).getD ""

/-- `PurePath.parent`: drop the final component. -/
def PurePath.parent (p : PurePath) : PurePath :=
  if p.parts.isEmpty then p else ⟨p.absolute, p.parts.dropLast⟩

/-- Remove `base` as a leading run of components, if it is one. -/
def dropPrefixParts : List String → List String → Option (List String)
  | [], rest => some rest
  | _ :: _, [] => none
  | b :: bs, x :: xs => if b = x then dropPrefixParts bs xs else none

/-- `PurePath.relative_to`: purely lexical, succeeds exactly when the base
is a component-wise prefix (and both sides agree on absoluteness). -/
def PurePath.relative_to (p base : PurePath) : Option PurePath :=
  if p.absolute = base.absolute then
    (dropPrefixParts base.parts p.parts).map (fun rest => ⟨false, rest⟩)
  else none

/-- Component processing of `os.path.normpath`: drop dots, pop a previous
component on `..` (keeping leading `..` of relative paths, dropping `..`
at the root of absolute ones). -/
def normParts (acc : List String) (cs : List String) (abs : Bool) :
    List String :=
  match cs with
  | [] => acc.reverse
  | c :: rest =>
    if c = "." ∨ c = "" then normParts acc rest abs
    else if c = ".." then
      match acc with
      | [] => if abs then normParts [] rest abs else normParts [".."] rest abs
      | a :: as2 =>
        if a = ".." then normParts (".." :: acc) rest abs
        else normParts as2 rest abs
    else normParts (c :: acc) rest abs

/-- `os.path.normpath`, acting on the parsed component form. -/
def PurePath.normpath (p : PurePath) : PurePath :=
  ⟨p.absolute, normParts [] p.parts p.absolute⟩

/-- String rendering of a path (the sort key / error-message form). -/
def pathKey (p : PurePath) : String :=
  (if p.absolute then "/" else "") ++ String.intercalate "/" p.parts

/-- Ordered insertion for `sortPaths`. -/
def insertSorted (x : PurePath) : List PurePath → List PurePath
  | [] => [x]
  | y :: ys =>
    if pathKey x ≤ pathKey y then x :: y :: ys else y :: insertSorted x ys

/-- Python `sorted` over paths (insertion sort on the rendered form). -/
def sortPaths (l : List PurePath) : List PurePath := l.foldr insertSorted []

/-- Length of the common component prefix of two paths. -/
def commonPrefixLen : List String → List String → Nat
  | a :: as2, b :: bs => if a = b then commonPrefixLen as2 bs + 1 else 0
  | _, _ => 0

/-- `os.path.relpath` on canonical relative component lists: climb out of
the non-shared part of `startParts` and descend into `pathParts`. -/
def relpathParts (pathParts startParts : List String) : List String :=
  let i := commonPrefixLen pathParts startParts
  List.replicate (startParts.length - i) ".." ++ pathParts.drop i

/-- `os.path.relpath` rendered as a string (`.` for the empty result). -/
def relpathStr (pathParts startParts : List String) : String :=
  let parts := relpathParts pathParts startParts
  if parts.isEmpty then "." else String.intercalate "/" parts

/-! ## fnmatch (Python fnmatch.filter semantics on POSIX) -/

/-- Scan a character-class body up to the closing bracket. -/
def findClose : List Char → List Char → Option (List Char × List Char)
  | _, [] => none
  | acc, c :: rest =>
    if c = ']' then some (acc.reverse, rest) else findClose (c :: acc) rest

/-- Parse a `[...]` class after the opening bracket: optional `!` negation,
a literal `]` first, then everything up to the closing `]`.  `none` means
there is no closing bracket and the `[` is literal. -/
def parseClass (cs : List Char) : Option (Bool × List Char × List Char) :=
  let p : Bool × List Char :=
    match cs with
    | c :: r => if c = '!' then (true, r) else (false, cs)
    | [] => (false, [])
  match p.2 with
  | c :: r =>
    if c = ']' then (findClose [']'] r).map (fun q => (p.1, q.1, q.2))
    else (findClose [] p.2).map (fun q => (p.1, q.1, q.2))
  | [] => none

/-- Membership test for a character class, with `a-b` ranges and a trailing
`-` taken literally. -/
def classMatch : List Char → Char → Bool
  | [], _ => false
  | [a], c => a = c
  | a :: d :: rest, c =>
    if d = '-' then
      match rest with
      | [] => a = c || d = c
      | b :: rest2 => (decide (a ≤ c) && decide (c ≤ b)) || classMatch rest2 c
    else a = c || classMatch (d :: rest) c

/-- Fuelled glob matcher: `*` crosses separators (as Python's fnmatch
does), `?` matches one character, `[...]` a class, and everything else is
literal. -/
def fnmatchAux (fuel : Nat) : List Char → List Char → Bool :=
  match fuel with
  | 0 => fun _ _ => false
  | fuel + 1 => fun pattern text =>
    match pattern, text with
    | [], [] => true
    | [], _ :: _ => false
    | p :: ps, t =>
      if p = '*' then
        fnmatchAux fuel ps t
          || (match t with
              | [] => false
              | _ :: t2 => fnmatchAux fuel (p :: ps) t2)
      else if p = '?' then
        match t with
        | [] => false
        | _ :: t2 => fnmatchAux fuel ps t2
      else if p = '[' then
        match t with
        | [] => false
        | c :: t2 =>
          match parseClass ps with
          | some (neg, cls, rest) =>
            (if neg then !classMatch cls c else classMatch cls c)
              && fnmatchAux fuel rest t2
          | none => decide (c = '[') && fnmatchAux fuel ps t2
      else
        match t with
        | [] => false
        | c :: t2 => decide (p = c) && fnmatchAux fuel ps t2

/-- `fnmatch.fnmatch(name, pattern)` on POSIX (where `normcase` is the
identity): full-string glob matching. -/
def fnmatch (pattern name : String) : Bool :=
  fnmatchAux (pattern.data.length + name.data.length + 1) pattern.data
    name.data

/-! ## Copy-out of output paths (src/lpcraft/commands/run.py) -/

/-- `_check_relative_path` from `src/lpcraft/commands/run.py`: succeed with
the relative form iff `path` is lexically inside `container`, else a
`CommandError` carrying the `ValueError` message. -/
def check_relative_path (path container : PurePath) :
    Except String PurePath :=
  match path.relative_to container with
  | some rel => .ok rel
  | none =>
    .error (pathKey path ++ " is not in the subpath of " ++ pathKey container)

/-- `_remove_prefix_if_possible` from `src/lpcraft/commands/run.py`. -/
def remove_prefix_if_possible (path : PurePath) (pre : String) : PurePath :=
  match path.relative_to ⟨false, [pre]⟩ with
  | some r => r
  | none => path

/-- Set-style insertion (`filtered_paths.add`). -/
def setAdd (l : List PurePath) (x : PurePath) : List PurePath :=
  if x ∈ l then l else l ++ [x]

/-- The whole-pattern pre-check loop of `_copy_output_paths`: every
configured pattern, anchored at the build tree and normalized, must stay
under the parent of the build tree. -/
def patternsCheck (patterns : List String) (remote_cwd : PurePath) :
    Except String Unit :=
  (mapME (fun pat =>
    check_relative_path (pjoin remote_cwd (parsePath pat)).normpath
      remote_cwd.parent) patterns).map (fun _ => ())

/-- The glob-filter loop of `_copy_output_paths`: for each pattern,
re-anchor every listed path relative to the build tree
(`os.path.relpath(path, remote_cwd.name)`), `fnmatch`-filter, fail if the
pattern matched nothing, and accumulate the matches as a set of parsed
paths. -/
def filteredOf (patterns : List String) (remotePaths : List PurePath)
    (cwdName : String) : Except String (List PurePath) :=
  foldME (fun acc pat =>
    let names := remotePaths.map (fun p => relpathStr p.parts [cwdName])
    let result := names.filter (fun n => fnmatch pat n)
    if result.isEmpty then
      .error (pat ++ " has not matched any output files.")
    else .ok (result.foldl (fun a n => setAdd a (parsePath n)) acc)) [] patterns

/-- The symlink-resolution step of `_copy_output_paths`: anchor each
filtered path at the build tree, in sorted order, and resolve it in the
container (`readlink -f`), then sort again for the copy loop. -/
def resolvedOf (filtered : List PurePath) (remote_cwd : PurePath)
    (resolveFn : PurePath → PurePath) : List PurePath :=
  sortPaths ((sortPaths filtered).map (fun p => resolveFn (pjoin remote_cwd p)))

/-- The final copy step for one resolved path: re-check containment in the
parent of the build tree, strip the build-tree name when possible, and pull
to `<target>/files/<relative path>`. -/
def copyStep (remote_cwd target_path : PurePath) (path : PurePath) :
    Except String (PurePath × PurePath) :=
  (check_relative_path path remote_cwd.parent).map (fun rel =>
    let relative_path := remove_prefix_if_possible rel remote_cwd.name
    (path, pjoin (pjoin target_path (parsePath "files")) relative_path))

/-- `_copy_output_paths` from `src/lpcraft/commands/run.py`, with the
container abstracted to the file listing of the parent of the build tree
(`listFiles`, the `find` output, relative paths) and the `readlink -f`
resolution function (`resolveFn`).  Returns the ordered list of
(container source, host destination) pulls, or the first fatal error. -/
def copy_output_paths (patterns : List String) (remote_cwd : PurePath)
    (listFiles : List PurePath) (resolveFn : PurePath → PurePath)
    (target_path : PurePath) : Except String (List (PurePath × PurePath)) :=
  match patternsCheck patterns remote_cwd with
  | .error e => .error e
  | .ok _ =>
    let remote_paths := sortPaths listFiles
    match filteredOf patterns remote_paths remote_cwd.name with
    | .error e => .error e
    | .ok filtered =>
      mapME (copyStep remote_cwd target_path)
        (resolvedOf filtered remote_cwd resolveFn)

/-! ## Helper lemmas about dictionary operations -/

theorem dGet_append_of_none {α : Type} {d1 : List (String × α)}
    {k : String} (d2 : List (String × α)) (h : dGet d1 k = none) :
    dGet (d1 ++ d2) k = dGet d2 k := by
  induction d1 with
  | nil => rfl
  | cons p rest ih =>
    obtain ⟨k2, w⟩ := p
    by_cases hk : k2 = k
    · simp [dGet, hk] at h
    · simp only [dGet, if_neg hk] at h
      simpa only [List.cons_append, dGet, if_neg hk] using ih h

theorem dGet_append_of_some {α : Type} {d1 : List (String × α)}
    {k : String} {v : α} (d2 : List (String × α)) (h : dGet d1 k = some v) :
    dGet (d1 ++ d2) k = some v := by
  induction d1 with
  | nil => simp [dGet] at h
  | cons p rest ih =>
    obtain ⟨k2, w⟩ := p
    by_cases hk : k2 = k
    · simp only [dGet, if_pos hk] at h
      simpa only [List.cons_append, dGet, if_pos hk] using h
    · simp only [dGet, if_neg hk] at h
      simpa only [List.cons_append, dGet, if_neg hk] using ih h

theorem dGet_map_set {α : Type} (d : List (String × α)) (k : String) (v : α) :
    dGet (d.map (fun p => if p.1 = k then (k, v) else p)) k
      = if (dGet d k).isSome then some v else none := by
  induction d with
  | nil => simp [dGet]
  | cons p rest ih =>
    obtain ⟨k2, w⟩ := p
    simp only [List.map_cons]
    by_cases hk : k2 = k
    · rw [if_pos (by simpa using hk)]
      subst hk
      simp [dGet]
    · rw [if_neg (by simpa using hk)]
      simp [dGet, hk, ih]

theorem dGet_map_set_ne {α : Type} (d : List (String × α)) {k k2 : String}
    (v : α) (hne : k ≠ k2) :
    dGet (d.map (fun p => if p.1 = k then (k, v) else p)) k2 = dGet d k2 := by
  induction d with
  | nil => rfl
  | cons p rest ih =>
    obtain ⟨k3, w⟩ := p
    simp only [List.map_cons]
    by_cases hk : k3 = k
    · rw [if_pos (by simpa using hk)]
      subst hk
      simp [dGet, hne, ih]
    · rw [if_neg (by simpa using hk)]
      by_cases hk2 : k3 = k2
      · simp [dGet, hk2]
      · simp [dGet, hk2, ih]

theorem dGet_dSet_self {α : Type} (d : List (String × α)) (k : String)
    (v : α) : dGet (dSet d k v) k = some v := by
  unfold dSet
  by_cases hs : (dGet d k).isSome
  · simp [hs, dGet_map_set]
  · rw [if_neg hs,
      dGet_append_of_none _ (Option.not_isSome_iff_eq_none.mp hs)]
    simp [dGet]

theorem dGet_dSet_ne {α : Type} (d : List (String × α)) {k k2 : String}
    (v : α) (hne : k ≠ k2) : dGet (dSet d k v) k2 = dGet d k2 := by
  unfold dSet
  by_cases hs : (dGet d k).isSome
  · simp [hs, dGet_map_set_ne _ _ hne]
  · rw [if_neg hs]
    cases h2 : dGet d k2 with
    | none =>
      rw [dGet_append_of_none _ h2]
      simp [dGet, hne]
    | some w => rw [dGet_append_of_some _ h2]

theorem dGet_dDel_self {α : Type} (d : List (String × α)) (k : String) :
    dGet (dDel d k) k = none := by
  induction d with
  | nil => rfl
  | cons p rest ih =>
    obtain ⟨k2, w⟩ := p
    by_cases hk : k2 = k
    · simpa [dDel, List.filter_cons, hk] using ih
    · simpa [dDel, List.filter_cons, dGet, hk] using ih

theorem dGet_dDel_ne {α : Type} (d : List (String × α)) {k k2 : String}
    (hne : k ≠ k2) : dGet (dDel d k) k2 = dGet d k2 := by
  induction d with
  | nil => rfl
  | cons p rest ih =>
    obtain ⟨k3, w⟩ := p
    simp only [dDel, List.filter_cons] at ih ⊢
    by_cases hk : k3 = k
    · subst hk
      simpa [dGet, hne] using ih
    · by_cases hk2 : k3 = k2
      · subst hk2
        simp [dGet, hk]
      · simpa [dGet, hk, hk2] using ih

theorem dGet_map_value {α : Type} (d : List (String × α))
    (f : String → α → α) (k : String) :
    dGet (d.map (fun p => (p.1, f p.1 p.2))) k = (dGet d k).map (f k) := by
  induction d with
  | nil => rfl
  | cons p rest ih =>
    obtain ⟨k2, w⟩ := p
    by_cases hk : k2 = k
    · subst hk
      simp [dGet]
    · simp [dGet, hk, ih]

theorem dGet_filter_key {α : Type} (d : List (String × α))
    (f : String → Bool) (k : String) :
    dGet (d.filter (fun p => f p.1)) k = if f k then dGet d k else none := by
  induction d with
  | nil => simp [dGet]
  | cons p rest ih =>
    obtain ⟨k2, w⟩ := p
    simp only [List.filter_cons]
    by_cases hf : f k2
    · by_cases hk : k2 = k
      · subst hk
        simp [dGet, hf]
      · simp [dGet, hf, hk, ih]
    · simp only [Bool.not_eq_true] at hf
      by_cases hk : k2 = k
      · subst hk
        simp [dGet, hf, ih]
      · simp [dGet, hf, hk, ih]

theorem dUpdate_map_form {α : Type} (d1 d2 : List (String × α)) :
    d1.map (fun p =>
      match dGet d2 p.1 with
      | some w => (p.1, w)
      | none => p)
      = d1.map (fun p => (p.1, (dGet d2 p.1).getD p.2)) := by
  apply List.map_congr_left
  intro p _
  cases h : dGet d2 p.1 <;> simp [h]

theorem dGet_dUpdate_of_some {α : Type} {d1 : List (String × α)}
    (d2 : List (String × α)) {k : String} {v : α} (h : dGet d1 k = some v) :
    dGet (dUpdate d1 d2) k = some ((dGet d2 k).getD v) := by
  unfold dUpdate
  rw [dUpdate_map_form]
  have hmap : dGet (d1.map (fun p => (p.1, (dGet d2 p.1).getD p.2))) k
      = some ((dGet d2 k).getD v) := by
    rw [dGet_map_value d1 (fun s w => (dGet d2 s).getD w) k, h]
    rfl
  exact dGet_append_of_some _ hmap

theorem dGet_dUpdate_of_none {α : Type} {d1 : List (String × α)}
    (d2 : List (String × α)) {k : String} (h : dGet d1 k = none) :
    dGet (dUpdate d1 d2) k = dGet d2 k := by
  unfold dUpdate
  rw [dUpdate_map_form]
  have hmap : dGet (d1.map (fun p => (p.1, (dGet d2 p.1).getD p.2))) k
      = none := by
    rw [dGet_map_value d1 (fun s w => (dGet d2 s).getD w) k, h]
    rfl
  rw [dGet_append_of_none _ hmap]
  have hf := dGet_filter_key d2 (fun s => (dGet d1 s).isNone) k
  simp only [h, Option.isNone_none, if_true] at hf
  exact hf

/-! ## C7: command resolution -/

/-- C7: for each of the before/run/after phases, if the job variant sets
the corresponding field directly and either no plugin is selected or the
selected plugin's `INTERPOLATES_RUN_COMMAND` is false, the resolved command
is the user's fragment; otherwise it is the first hook contributor's
return value. -/
theorem c7_resolve_runtime_value (plugin command_from_config : Option String)
    (hookResults : List String) :
    ((command_from_config.isSome
        ∧ (plugin = none
            ∨ ∃ p, plugin = some p ∧ dGet PLUGINS p = some false)) →
      resolve_runtime_value plugin command_from_config hookResults
        = command_from_config)
    ∧ ((command_from_config = none
        ∨ ∃ p, plugin = some p ∧ dGet PLUGINS p = some true) →
      resolve_runtime_value plugin command_from_config hookResults
        = hookResults.head?) := by
  constructor
  · rintro ⟨hsome, hni⟩
    obtain ⟨c, hc⟩ := Option.isSome_iff_exists.mp hsome
    rcases hni with hnone | ⟨p, hp, hfalse⟩
    · simp [resolve_runtime_value, hnone, hc]
    · simp [resolve_runtime_value, hp, hfalse, hc]
  · rintro (hnone | ⟨p, hp, htrue⟩)
    · cases plugin with
      | none => simp [resolve_runtime_value, hnone]
      | some p =>
        cases hreg : dGet PLUGINS p with
        | none => simp [resolve_runtime_value, hnone, hreg]
        | some b => simp [resolve_runtime_value, hnone, hreg]
    · cases command_from_config with
      | none => cases hflag : dGet PLUGINS p with
        | none => simp [resolve_runtime_value, hp, hflag]
        | some b => simp [resolve_runtime_value, hp, hflag]
      | some c => simp [resolve_runtime_value, hp, htrue]

/-- C7 witness: with the `tox` plugin (no run interpolation) a directly
configured `run` wins; with `miniconda` (interpolating) the hook
contribution wins. -/
theorem c7_witness :
    resolve_runtime_value (some "tox") (some "make")
        ["python3 -m pip install tox==3.24.5; tox"] = some "make"
    ∧ resolve_runtime_value (some "miniconda") (some "make") ["wrapped"]
        = some "wrapped" := by
  constructor
  · exact (c7_resolve_runtime_value (some "tox") (some "make") _).1
      ⟨by simp, Or.inr ⟨"tox", rfl, rfl⟩⟩
  · exact ((c7_resolve_runtime_value (some "miniconda") (some "make") _).2
      (Or.inr ⟨"miniconda", rfl, rfl⟩)).trans rfl

/-! ## C10: snap installation parameters -/

/-- C10: every snap in the aggregated list is installed from the store
with channel `latest/stable` and classic confinement; the calls are one
per snap in order, and the configured `channel`/`classic` fields of the
snap entries never change the observable (name, channel, classic) of the
issued calls. -/
theorem c10_snap_install_calls (snaps : List Snap) :
    (∀ call ∈ snap_install_calls snaps,
      call.channel = "latest/stable" ∧ call.classic = true)
    ∧ (snap_install_calls snaps).map (fun call => call.snap) = snaps
    ∧ ∀ (f : Snap → Option String) (g : Snap → Option Bool),
        (snap_install_calls (snaps.map
            (fun s => { s with channel := f s, classic := g s }))).map
          (fun call => (call.snap.name, call.channel, call.classic))
        = (snap_install_calls snaps).map
          (fun call => (call.snap.name, call.channel, call.classic)) := by
  refine ⟨?_, ?_, ?_⟩
  · intro call hcall
    simp only [snap_install_calls, List.mem_map] at hcall
    obtain ⟨s, _, rfl⟩ := hcall
    exact ⟨rfl, rfl⟩
  · simp only [snap_install_calls, List.map_map]
    have hcomp : ((fun call : SnapInstallCall => call.snap)
        ∘ fun s => (⟨s, "latest/stable", true⟩ : SnapInstallCall)) = id := rfl
    rw [hcomp, List.map_id]
  · intro f g
    simp [snap_install_calls, List.map_map, Function.comp]

/-- C10 witness: a snap entry configured with channel `beta` and
`classic: false` is still installed with channel `latest/stable` and
classic confinement. -/
theorem c10_witness :
    (∀ call ∈ snap_install_calls [⟨"chromium", some "beta", some false⟩],
      call.channel = "latest/stable" ∧ call.classic = true)
    ∧ (snap_install_calls [⟨"chromium", some "beta", some false⟩]).map
        (fun call => call.snap) = [⟨"chromium", some "beta", some false⟩] := by
  have H := c10_snap_install_calls [⟨"chromium", some "beta", some false⟩]
  exact ⟨H.1, H.2.1⟩

/-! ## C4: instance naming -/

theorem string_eq_of_data_eq {s t : String} (h : s.data = t.data) : s = t := by
  cases s
  cases t
  exact congrArg String.mk h

theorem sanitizeChars_mem_clean (cs : List Char) :
    ∀ c ∈ sanitizeChars cs, isCleanChar c = true := by
  intro c hc
  unfold sanitizeChars at hc
  obtain ⟨a, _, rfl⟩ := List.mem_map.mp (List.mem_of_mem_take hc)
  by_cases h : isCleanChar a
  · rw [if_pos h]
    exact h
  · rw [if_neg h]
    decide

theorem sanitizeChars_length_le (cs : List Char) :
    (sanitizeChars cs).length ≤ 63 := by
  unfold sanitizeChars
  exact List.length_take_le 63 _

theorem map_clean_id : ∀ (cs : List Char), (∀ c ∈ cs, isCleanChar c = true) →
    cs.map (fun c => if isCleanChar c then c else '-') = cs := by
  intro cs
  induction cs with
  | nil => intro _; rfl
  | cons a rest ih =>
    intro h
    have ha := h a (List.mem_cons_self a rest)
    have hr := fun c hc => h c (List.mem_cons_of_mem a hc)
    simp [ha, ih hr]

theorem map_clean_dash :
    ("-" : String).data.map (fun c => if isCleanChar c then c else '-')
      = ['-'] := by decide

theorem sep_append_inj : ∀ (xs1 xs2 : List Char) {ys1 ys2 : List Char},
    (∀ c ∈ xs1, c ≠ '-') → (∀ c ∈ xs2, c ≠ '-') →
    xs1 ++ '-' :: ys1 = xs2 ++ '-' :: ys2 → xs1 = xs2 ∧ ys1 = ys2 := by
  intro xs1
  induction xs1 with
  | nil =>
    intro xs2 ys1 ys2 _ h2 heq
    cases xs2 with
    | nil => simpa using heq
    | cons b bs =>
      simp only [List.nil_append, List.cons_append, List.cons.injEq] at heq
      exact absurd heq.1.symm (h2 b (List.mem_cons_self b bs))
  | cons a as ih =>
    intro xs2 ys1 ys2 h1 h2 heq
    cases xs2 with
    | nil =>
      simp only [List.nil_append, List.cons_append, List.cons.injEq] at heq
      exact absurd heq.1 (h1 a (List.mem_cons_self a as))
    | cons b bs =>
      simp only [List.cons_append, List.cons.injEq] at heq
      obtain ⟨hab, hrest⟩ := heq
      obtain ⟨h3, h4⟩ := ih bs (fun c hc => h1 c (List.mem_cons_of_mem a hc))
        (fun c hc => h2 c (List.mem_cons_of_mem b hc)) hrest
      exact ⟨by rw [hab, h3], h4⟩

/-- C4 (amended): the instance name is always clean (only `[A-Za-z0-9-]`,
at most 63 characters); and it is injective in `(series, architecture)`
provided both fields avoid the sanitized characters and the hyphen, and
the assembled name fits in the 63-character bound.  (Unrestricted
injectivity fails; see the counterexample.) -/
theorem c4_instance_name_clean_and_injective (project_name : String)
    (inode : Nat) (s1 a1 s2 a2 : String)
    (hs1 : ∀ c ∈ s1.data, isCleanChar c = true ∧ c ≠ '-')
    (ha1 : ∀ c ∈ a1.data, isCleanChar c = true ∧ c ≠ '-')
    (hs2 : ∀ c ∈ s2.data, isCleanChar c = true ∧ c ≠ '-')
    (ha2 : ∀ c ∈ a2.data, isCleanChar c = true ∧ c ≠ '-')
    (hlen1 : ("lpci-" ++ project_name ++ "-" ++ toString inode ++ "-" ++ s1
      ++ "-" ++ a1).length ≤ 63)
    (hlen2 : ("lpci-" ++ project_name ++ "-" ++ toString inode ++ "-" ++ s2
      ++ "-" ++ a2).length ≤ 63) :
    (∀ c ∈ (get_instance_name project_name inode s1 a1).data,
      isCleanChar c = true)
    ∧ (get_instance_name project_name inode s1 a1).length ≤ 63
    ∧ (get_instance_name project_name inode s1 a1
        = get_instance_name project_name inode s2 a2
        → s1 = s2 ∧ a1 = a2) := by
  refine ⟨sanitizeChars_mem_clean _, sanitizeChars_length_le _, ?_⟩
  intro heq
  have h2 : sanitizeChars ("lpci-" ++ project_name ++ "-" ++ toString inode
        ++ "-" ++ s1 ++ "-" ++ a1).data
      = sanitizeChars ("lpci-" ++ project_name ++ "-" ++ toString inode
        ++ "-" ++ s2 ++ "-" ++ a2).data := congrArg String.data heq
  unfold sanitizeChars at h2
  rw [List.take_of_length_le (by simp only [List.length_map]; exact hlen1),
    List.take_of_length_le (by simp only [List.length_map]; exact hlen2)]
    at h2
  simp only [String.data_append, List.map_append] at h2
  rw [map_clean_dash, map_clean_id s1.data (fun c hc => (hs1 c hc).1),
    map_clean_id a1.data (fun c hc => (ha1 c hc).1),
    map_clean_id s2.data (fun c hc => (hs2 c hc).1),
    map_clean_id a2.data (fun c hc => (ha2 c hc).1)] at h2
  simp only [List.append_assoc] at h2
  have h3 := List.append_cancel_left (List.append_cancel_left
    (List.append_cancel_left (List.append_cancel_left
      (List.append_cancel_left h2))))
  rw [List.singleton_append, List.singleton_append] at h3
  obtain ⟨hs, ha⟩ := sep_append_inj s1.data s2.data
    (fun c hc => (hs1 c hc).2) (fun c hc => (hs2 c hc).2) h3
  exact ⟨string_eq_of_data_eq hs, string_eq_of_data_eq ha⟩

/-- C4 counterexample: two distinct `(series, architecture)` pairs of
valid identifiers yield the same instance name, because the hyphen
separating the fields also occurs inside identifiers. -/
theorem c4_counterexample :
    get_instance_name "p" 1 "ab" "c-dd" = get_instance_name "p" 1 "ab-c" "dd"
    ∧ isIdentifier "ab" = true ∧ isIdentifier "c-dd" = true
    ∧ isIdentifier "ab-c" = true ∧ isIdentifier "dd" = true
    ∧ ("ab", "c-dd") ≠ ("ab-c", "dd") := by
  refine ⟨by decide, by decide, by decide, by decide, by decide, by decide⟩

/-- C4 witness: the amended theorem applied to concrete clean inputs. -/
theorem c4_witness :
    (∀ c ∈ (get_instance_name "proj" 7 "focal" "amd64").data,
      isCleanChar c = true)
    ∧ (get_instance_name "proj" 7 "focal" "amd64").length ≤ 63
    ∧ (get_instance_name "proj" 7 "focal" "amd64"
        = get_instance_name "proj" 7 "jammy" "arm64"
        → ("focal" : String) = "jammy" ∧ ("amd64" : String) = "arm64") := by
  exact c4_instance_name_clean_and_injective "proj" 7 "focal" "amd64"
    "jammy" "arm64" (by decide) (by decide) (by decide) (by decide)
    (by decide) (by decide)

/-! ## C5: package-repository suite inference and rendering -/

theorem mapME_ok_of_forall {ε α β : Type} (f : α → Except ε β) (g : α → β) :
    ∀ {l : List α}, (∀ x ∈ l, f x = .ok (g x)) → mapME f l = .ok (l.map g) := by
  intro l
  induction l with
  | nil => intro _; rfl
  | cons x xs ih =>
    intro h
    have hx := h x (List.mem_cons_self x xs)
    have hxs := ih (fun y hy => h y (List.mem_cons_of_mem x hy))
    simp [mapME, hx, hxs]

theorem truthy_yes : TrustedVal.truthy (.str "yes") = true := by decide

theorem truthy_no : TrustedVal.truthy (.str "no") = true := by decide

/-- C5 (amended): for a job whose series is a member of the closed
`PackageSuite` enum, validation fills every unset `suites` with exactly
`[series]`; and rendering yields exactly one line per (format, suite)
pair, of the specified shape, with the `[trusted=yes|no]` clause present
exactly when the configuration set `trusted`.  (For a series outside the
enum the suite fill raises `KeyError` instead; see the counterexample.) -/
theorem c5_suite_fill_and_rendering (series : String)
    (hseries : series ∈ packageSuiteNames)
    (repos : List PackageRepository)
    (formats components suites : List String) (url : String)
    (trustedRaw : Option Bool) :
    validate_package_repositories series repos
      = .ok (repos.map (fun r =>
          if r.suites.isEmpty then { r with suites := [series] } else r))
    ∧ sources_list_lines (mkRepo formats components suites url trustedRaw)
      = formats.flatMap (fun format => suites.map (fun suite =>
          specSourcesLine trustedRaw url components format suite)) := by
  constructor
  · apply mapME_ok_of_forall
    intro r _
    by_cases hr : r.suites.isEmpty
    · simp [hr, packageSuiteLookup, hseries]
    · simp [hr]
  · cases trustedRaw with
    | none =>
      simp [sources_list_lines, mkRepo, parseTrusted, TrustedVal.truthy,
        specSourcesLine]
    | some b =>
      cases b with
      | false =>
        simp [sources_list_lines, mkRepo, parseTrusted, convert_trusted,
          truthy_no, TrustedVal.render, specSourcesLine]
      | true =>
        simp [sources_list_lines, mkRepo, parseTrusted, convert_trusted,
          truthy_yes, TrustedVal.render, specSourcesLine]

/-- C5 counterexample: `noble` is a valid series identifier, yet the suite
fill raises `KeyError` instead of filling `[noble]`, because the
`PackageSuite` enum is closed over bionic/focal/jammy. -/
theorem c5_counterexample :
    isIdentifier "noble" = true
    ∧ validate_package_repositories "noble"
        [mkRepo ["deb"] ["main"] [] "http://archive.example" none]
      = .error "KeyError: noble" := by
  exact ⟨by decide, rfl⟩

/-- C5 witness: the amended theorem at a concrete repository, showing the
filled suite and the rendered line with an explicit `trusted: false`. -/
theorem c5_witness :
    validate_package_repositories "focal"
        [mkRepo ["deb"] ["main", "universe"] [] "http://u" (some false)]
      = .ok [mkRepo ["deb"] ["main", "universe"] ["focal"] "http://u"
          (some false)]
    ∧ sources_list_lines (mkRepo ["deb"] ["main", "universe"] ["focal"]
        "http://u" (some false))
      = ["deb [trusted=no] http://u focal main universe"] := by
  have H := c5_suite_fill_and_rendering "focal" (by decide)
    [mkRepo ["deb"] ["main", "universe"] [] "http://u" (some false)]
    ["deb"] ["main", "universe"] ["focal"] "http://u" (some false)
  exact ⟨H.1.trans (by rfl), H.2.trans (by rfl)⟩

/-! ## C8: matrix expansion -/

theorem mapMO_ok_of_forall {α β : Type} (f : α → Option β) (g : α → β) :
    ∀ {l : List α}, (∀ x ∈ l, f x = some (g x)) → mapMO f l = some (l.map g) := by
  intro l
  induction l with
  | nil => intro _; rfl
  | cons x xs ih =>
    intro h
    have hx := h x (List.mem_cons_self x xs)
    have hxs := ih (fun y hy => h y (List.mem_cons_of_mem x hy))
    simp [mapMO, hx, hxs]

theorem mapMO_over_objs (f : JDict → JDict) : ∀ items : List JDict,
    mapMO (fun it => (asObj it).map f) (items.map JVal.obj)
      = some (items.map f) := by
  intro items
  induction items with
  | nil => rfl
  | cons d ds ih =>
    simp only [List.map_cons, mapMO]
    rw [show asObj (JVal.obj d) = some d from rfl, Option.map_some', ih]

theorem flatten_map_singleton {α : Type} : ∀ l : List α,
    (l.map (fun v => [v])).flatten = l := by
  intro l
  induction l with
  | nil => rfl
  | cons x xs ih => simp [ih]

/-- C8 (amended): a job entry without a `matrix` key expands to exactly
the singleton of that entry; one with a `matrix` key expands to one
variant per matrix item, parent keys shallowly merged with item keys
overriding; and provided no matrix item itself carries a `matrix` key,
every produced variant re-expands to its own singleton, so expanding
twice equals expanding once.  (Idempotence fails when a matrix item
contains a nested `matrix` key; see the counterexample.) -/
theorem c8_matrix_expansion_idempotent (values : JDict) (items : List JDict)
    (hmatrix : dGet values "matrix" = some (.arr (items.map JVal.obj)))
    (hnested : ∀ d ∈ items, dGet d "matrix" = none) :
    (∀ w : JDict, dGet w "matrix" = none → expand_job_values w = some [w])
    ∧ expand_job_values values
        = some (items.map (fun d => dUpdate (dDel values "matrix") d))
    ∧ (∀ v ∈ items.map (fun d => dUpdate (dDel values "matrix") d),
        expand_job_values v = some [v])
    ∧ expand_job_values_twice values = expand_job_values values := by
  have hsingle : ∀ w : JDict, dGet w "matrix" = none →
      expand_job_values w = some [w] := by
    intro w hw
    simp [expand_job_values, hw]
  have honce : expand_job_values values
      = some (items.map (fun d => dUpdate (dDel values "matrix") d)) := by
    simp only [expand_job_values, hmatrix]
    exact mapMO_over_objs _ items
  have heach : ∀ v ∈ items.map (fun d => dUpdate (dDel values "matrix") d),
      expand_job_values v = some [v] := by
    intro v hv
    obtain ⟨d, hd, rfl⟩ := List.mem_map.mp hv
    apply hsingle
    rw [dGet_dUpdate_of_none _ (dGet_dDel_self values "matrix")]
    exact hnested d hd
  refine ⟨hsingle, honce, heach, ?_⟩
  have hmap := mapMO_ok_of_forall expand_job_values (fun v => [v])
    (fun v hv => heach v hv)
  rw [expand_job_values_twice, honce, Option.some_bind, hmap, Option.map_some',
    flatten_map_singleton]

/-- C8 counterexample: a matrix item that itself carries a `matrix` key
expands to a variant that still has a `matrix` key, and expanding again
yields the empty list, so expanding twice differs from expanding once. -/
theorem c8_counterexample :
    expand_job_values
        [("matrix", JVal.arr [JVal.obj [("matrix", JVal.arr [])]])]
      = some [[("matrix", JVal.arr [])]]
    ∧ expand_job_values_twice
        [("matrix", JVal.arr [JVal.obj [("matrix", JVal.arr [])]])]
      = some []
    ∧ expand_job_values [("matrix", JVal.arr [])] = some []
    ∧ some ([] : List JDict) ≠ some [[("matrix", JVal.arr [])]] := by
  refine ⟨rfl, rfl, rfl, ?_⟩
  intro h
  injection h with h2
  exact List.cons_ne_nil _ _ h2.symm

/-- C8 witness: the amended theorem at a two-item matrix over a parent
with a `run` key. -/
theorem c8_witness :
    expand_job_values [("run", JVal.str "tox"),
        ("matrix", JVal.arr [JVal.obj [("series", JVal.str "bionic")],
          JVal.obj [("series", JVal.str "focal")]])]
      = some [[("run", JVal.str "tox"), ("series", JVal.str "bionic")],
          [("run", JVal.str "tox"), ("series", JVal.str "focal")]]
    ∧ expand_job_values_twice [("run", JVal.str "tox"),
        ("matrix", JVal.arr [JVal.obj [("series", JVal.str "bionic")],
          JVal.obj [("series", JVal.str "focal")]])]
      = expand_job_values [("run", JVal.str "tox"),
        ("matrix", JVal.arr [JVal.obj [("series", JVal.str "bionic")],
          JVal.obj [("series", JVal.str "focal")]])] := by
  have H := c8_matrix_expansion_idempotent
    [("run", JVal.str "tox"),
      ("matrix", JVal.arr [JVal.obj [("series", JVal.str "bionic")],
        JVal.obj [("series", JVal.str "focal")]])]
    [[("series", JVal.str "bionic")], [("series", JVal.str "focal")]]
    rfl
    (by
      intro d hd
      simp only [List.mem_cons, List.mem_singleton, List.not_mem_nil,
        or_false] at hd
      rcases hd with rfl | rfl
      · rfl
      · rfl)
  exact ⟨H.2.1.trans (by rfl), H.2.2.2⟩

/-! ## C9: persistence of the license injection -/

theorem set_license_key_spec (props : JDict) (key : String) (v : JVal)
    (h : dGet props "license" = none
      ∨ ∃ d, dGet props "license" = some (.obj d)) :
    ∃ ps d0,
      set_license_key props key v = some ps
      ∧ (dGet props "license" = none ∧ d0 = []
          ∨ dGet props "license" = some (.obj d0))
      ∧ dGet ps "license" = some (.obj (dSet d0 key v)) := by
  rcases h with hnone | ⟨d, hd⟩
  · have hget2 : dGet (props ++ [("license", JVal.obj [])]) "license"
        = some (.obj []) := by
      rw [dGet_append_of_none _ hnone]
      rfl
    refine ⟨dSet (props ++ [("license", JVal.obj [])]) "license"
        (.obj (dSet [] key v)), [], ?_, Or.inl ⟨hnone, rfl⟩, ?_⟩
    · simp only [set_license_key, hnone, Option.isSome_none, Bool.false_eq_true,
        if_false, hget2]
    · exact dGet_dSet_self _ _ _
  · refine ⟨dSet props "license" (.obj (dSet d key v)), d, ?_, Or.inr hd, ?_⟩
    · simp only [set_license_key, hd, Option.isSome_some, if_true]
    · exact dGet_dSet_self _ _ _

theorem inject_license_spec (lic : License) (job : Job)
    (h : dGet ((job.output.getD {}).properties.getD []) "license" = none
      ∨ ∃ d, dGet ((job.output.getD {}).properties.getD []) "license"
          = some (.obj d)) :
    ∃ ps, inject_license (some lic) job
        = some { job with output := some ({ (job.output.getD {}) with
                   properties := some ps }) }
      ∧ ∃ d0, (dGet ((job.output.getD {}).properties.getD []) "license" = none
            ∧ d0 = []
          ∨ dGet ((job.output.getD {}).properties.getD []) "license"
              = some (.obj d0))
        ∧ dGet ps "license" = some (.obj (dSet (dSet d0 "spdx"
            (jStrOpt lic.spdx)) "path" (jStrOpt lic.path))) := by
  obtain ⟨ps1, d0, heq1, hcase1, hget1⟩ := set_license_key_spec
    ((job.output.getD {}).properties.getD []) "spdx" (jStrOpt lic.spdx) h
  obtain ⟨ps2, d1, heq2, hcase2, hget2⟩ := set_license_key_spec ps1 "path"
    (jStrOpt lic.path) (Or.inr ⟨_, hget1⟩)
  have hd1 : d1 = dSet d0 "spdx" (jStrOpt lic.spdx) := by
    rcases hcase2 with ⟨hbad, _⟩ | hsome
    · rw [hget1] at hbad
      cases hbad
    · rw [hget1] at hsome
      injection hsome with hobj
      injection hobj with hlist
      exact hlist.symm
  refine ⟨ps2, ?_, d0, hcase1, ?_⟩
  · simp only [inject_license, License.dict, foldMO, heq1, heq2,
      Option.map_some']
  · rw [hget2, hd1]

/-- C9 (amended): the executor's license injection is not transient: with
a root license descriptor set, after the per-job block the variant
permanently carries an `output.properties` whose `license` key holds the
descriptor's record (a variant without an output descriptor gains one);
only with no license descriptor is the variant left unchanged. -/
theorem c9_license_injection_persists (job : Job) (lic : License)
    (h : dGet ((job.output.getD {}).properties.getD []) "license" = none
      ∨ ∃ d, dGet ((job.output.getD {}).properties.getD []) "license"
          = some (.obj d)) :
    inject_license none job = some job
    ∧ ∃ jobF, inject_license (some lic) job = some jobF
        ∧ ∃ out props, jobF.output = some out ∧ out.properties = some props
          ∧ ∃ d, dGet props "license" = some (.obj d)
            ∧ dGet d "spdx" = some (jStrOpt lic.spdx)
            ∧ dGet d "path" = some (jStrOpt lic.path) := by
  refine ⟨rfl, ?_⟩
  obtain ⟨ps, heq, d0, hcase, hget⟩ := inject_license_spec lic job h
  refine ⟨_, heq, _, _, rfl, rfl, _, hget, ?_, ?_⟩
  · rw [dGet_dSet_ne _ _ (by decide)]
    exact dGet_dSet_self _ _ _
  · exact dGet_dSet_self _ _ _

/-- C9 counterexample: a variant with no output descriptor before the run
has one afterwards — the license injection mutates the variant and nothing
restores it, so the variant does not equal its pre-run state. -/
theorem c9_counterexample :
    ({ series := "focal", architectures := ["amd64"] } : Job).output = none
    ∧ ∃ jobF, inject_license (some { spdx := some "MIT", path := none })
          { series := "focal", architectures := ["amd64"] } = some jobF
        ∧ jobF.output ≠ none := by
  exact ⟨rfl, ⟨_, rfl, fun hcon => Option.noConfusion hcon⟩⟩

/-- C9 witness: the amended theorem at a variant without an output
descriptor and an spdx-only license. -/
theorem c9_witness :
    inject_license none { series := "focal", architectures := ["amd64"] }
      = some { series := "focal", architectures := ["amd64"] }
    ∧ ∃ jobF, inject_license (some { spdx := some "MIT", path := none })
          { series := "focal", architectures := ["amd64"] } = some jobF
        ∧ ∃ out props, jobF.output = some out ∧ out.properties = some props
          ∧ ∃ d, dGet props "license" = some (.obj d)
            ∧ dGet d "spdx" = some (jStrOpt (some "MIT"))
            ∧ dGet d "path" = some (jStrOpt none) := by
  exact c9_license_injection_persists
    { series := "focal", architectures := ["amd64"] }
    { spdx := some "MIT", path := none } (Or.inl rfl)

/-! ## C1: license vs. dynamic properties in the properties file -/

theorem apply_dynamic_keep :
    ∀ (dyn : List (String × Option String)) (props : JDict) (k : String),
    (∀ kv ∈ dyn, kv.1 ≠ k) →
    dGet (apply_dynamic_properties props dyn) k = dGet props k := by
  intro dyn
  induction dyn with
  | nil =>
    intro props k _
    rfl
  | cons kv rest ih =>
    intro props k h
    obtain ⟨k2, vo⟩ := kv
    have hk2 : k2 ≠ k := h (k2, vo) (List.mem_cons_self _ _)
    have hrest := fun kv2 hkv2 => h kv2 (List.mem_cons_of_mem _ hkv2)
    cases vo with
    | some v =>
      rw [show apply_dynamic_properties props ((k2, some v) :: rest)
          = apply_dynamic_properties (dSet props k2 (.str v)) rest from rfl]
      rw [ih _ _ hrest, dGet_dSet_ne _ _ hk2]
    | none =>
      rw [show apply_dynamic_properties props ((k2, none) :: rest)
          = apply_dynamic_properties (dDel props k2) rest from rfl]
      rw [ih _ _ hrest, dGet_dDel_ne _ hk2]

theorem apply_dynamic_last (props : JDict)
    (pre : List (String × Option String)) (k : String) (v : String) :
    dGet (apply_dynamic_properties props (pre ++ [(k, some v)])) k
      = some (.str v) := by
  unfold apply_dynamic_properties
  rw [List.foldl_append]
  exact dGet_dSet_self _ _ _

/-- C1 (amended): with the root license descriptor set, the properties
file maps `license` to exactly the `{spdx, path}` record (nulls preserved)
provided neither the static properties nor the dynamic-properties entries
mention `license`; the license write happens before dynamic properties are
applied, so a dynamic `license` entry overrides it (the original claim's
"final overwrite after dynamic properties" fails; see the
counterexample). -/
theorem c1_license_in_properties (lic : License) (job : Job)
    (dynamicVals : List (String × Option String))
    (hstatic : dGet ((job.output.getD {}).properties.getD []) "license"
      = none)
    (hdyn : ∀ kv ∈ dynamicVals, kv.1 ≠ "license") :
    (∃ final, job_final_properties (some lic) job dynamicVals = some final
      ∧ dGet final "license" = some (.obj [("spdx", jStrOpt lic.spdx),
          ("path", jStrOpt lic.path)]))
    ∧ (((job.output.getD {}).dynamic_properties).isSome →
      ∀ pre v, ∃ final2, job_final_properties (some lic) job
          (pre ++ [("license", some v)]) = some final2
        ∧ dGet final2 "license" = some (.str v)) := by
  obtain ⟨ps, heq, d0, hcase, hget⟩ :=
    inject_license_spec lic job (Or.inl hstatic)
  have hd0 : d0 = [] := by
    rcases hcase with ⟨_, h0⟩ | hsome
    · exact h0
    · rw [hstatic] at hsome
      cases hsome
  subst hd0
  rw [show dSet (dSet ([] : JDict) "spdx" (jStrOpt lic.spdx)) "path"
      (jStrOpt lic.path)
      = [("spdx", jStrOpt lic.spdx), ("path", jStrOpt lic.path)] from rfl]
    at hget
  have hjob : ∀ dyn : List (String × Option String),
      job_final_properties (some lic) job dyn
        = some (copy_output_properties ({ (job.output.getD {}) with
            properties := some ps }) dyn) := by
    intro dyn
    simp only [job_final_properties, heq]
  constructor
  · refine ⟨_, hjob dynamicVals, ?_⟩
    cases hdp : (job.output.getD {}).dynamic_properties with
    | none =>
      rw [show copy_output_properties ({ (job.output.getD {}) with
            properties := some ps }) dynamicVals
          = match (job.output.getD {}).dynamic_properties with
            | none => ps
            | some _ => apply_dynamic_properties ps dynamicVals from rfl,
        hdp]
      exact hget
    | some dpath =>
      rw [show copy_output_properties ({ (job.output.getD {}) with
            properties := some ps }) dynamicVals
          = match (job.output.getD {}).dynamic_properties with
            | none => ps
            | some _ => apply_dynamic_properties ps dynamicVals from rfl,
        hdp]
      rw [apply_dynamic_keep dynamicVals ps "license" hdyn]
      exact hget
  · intro hdpsome pre v
    obtain ⟨dpath, hdp⟩ := Option.isSome_iff_exists.mp hdpsome
    refine ⟨_, hjob (pre ++ [("license", some v)]), ?_⟩
    rw [show copy_output_properties ({ (job.output.getD {}) with
          properties := some ps }) (pre ++ [("license", some v)])
        = match (job.output.getD {}).dynamic_properties with
          | none => ps
          | some _ => apply_dynamic_properties ps
              (pre ++ [("license", some v)]) from rfl,
      hdp]
    exact apply_dynamic_last ps pre "license" v

/-- C1 counterexample: a dynamic-properties entry named `license`
overrides the injected license record, so the license write is not the
final overwrite applied after dynamic properties. -/
theorem c1_counterexample :
    job_final_properties (some { spdx := some "MIT", path := none })
        { series := "focal", architectures := ["amd64"],
          output := some { dynamic_properties := some "props" } }
        [("license", some "overridden")]
      = some [("license", JVal.str "overridden")]
    ∧ JVal.str "overridden"
        ≠ JVal.obj [("spdx", JVal.str "MIT"), ("path", JVal.null)] := by
  exact ⟨rfl, fun hcon => JVal.noConfusion hcon⟩

/-- C1 witness: the amended theorem at a variant with static properties,
a dynamic-properties file, and an spdx license. -/
theorem c1_witness :
    (∃ final, job_final_properties (some { spdx := some "MIT", path := none })
        { series := "focal", architectures := ["amd64"],
          output := some { properties := some [("version", JVal.str "0.1")],
                           dynamic_properties := some "props" } }
        [("version", some "0.2")] = some final
      ∧ dGet final "license" = some (.obj [("spdx", jStrOpt (some "MIT")),
          ("path", jStrOpt none)]))
    ∧ (∃ final2, job_final_properties (some { spdx := some "MIT", path := none })
        { series := "focal", architectures := ["amd64"],
          output := some { properties := some [("version", JVal.str "0.1")],
                           dynamic_properties := some "props" } }
        ([] ++ [("license", some "overridden")]) = some final2
      ∧ dGet final2 "license" = some (.str "overridden")) := by
  have H := c1_license_in_properties { spdx := some "MIT", path := none }
    { series := "focal", architectures := ["amd64"],
      output := some { properties := some [("version", JVal.str "0.1")],
                       dynamic_properties := some "props" } }
    [("version", some "0.2")] rfl
    (by
      intro kv hkv
      simp only [List.mem_singleton] at hkv
      rw [hkv]
      decide)
  exact ⟨H.1, H.2 rfl [] "overridden"⟩

/-! ## C6: secrets rendering of the apt sources -/

/-- C6 (amended): when the aggregated package-repositories list is
non-empty, the written `sources.list` content is the accumulated text with
secrets substituted (plus the final newline); when only
replace-package-repositories is given and the package-repositories list is
empty, the replacement lines are written verbatim, with no secret
substitution (the original claim's unconditional substitution fails; see
the counterexample). -/
theorem c6_secrets_rendering (current : String) (replace pkgRepos : List String)
    (secrets : List (String × String)) (hsec : secrets ≠ []) :
    (pkgRepos ≠ [] → compute_sources current replace pkgRepos secrets
      = some (render_template
          ((if replace.isEmpty then current
            else String.intercalate "\n" replace ++ "\n")
            ++ "\n" ++ String.intercalate "\n" pkgRepos) secrets ++ "\n"))
    ∧ (pkgRepos = [] → replace ≠ [] →
      compute_sources current replace pkgRepos secrets
        = some (String.intercalate "\n" replace ++ "\n")) := by
  have hsecb : secrets.isEmpty = false := by
    cases secrets with
    | nil => exact absurd rfl hsec
    | cons a l => rfl
  constructor
  · intro hne
    cases pkgRepos with
    | nil => exact absurd rfl hne
    | cons r rs =>
      by_cases hrep : replace.isEmpty
      · simp [compute_sources, hrep, hsecb]
      · simp only [Bool.not_eq_true] at hrep
        simp [compute_sources, hrep, hsecb]
  · intro hpnil hrne
    subst hpnil
    have hrepb : replace.isEmpty = false := by
      cases replace with
      | nil => exact absurd rfl hrne
      | cons a l => rfl
    simp [compute_sources, hrepb]

/-- C6 counterexample: with only `--replace-package-repositories` given,
the replacement text containing a placeholder is written verbatim; the
secret is not substituted even though the secrets mapping is non-empty. -/
theorem c6_counterexample :
    compute_sources "old\n" ["deb http://x \x7b\x7bauth\x7d\x7d main"] []
        [("auth", "user:pass")]
      = some "deb http://x \x7b\x7bauth\x7d\x7d main\n"
    ∧ render_template "deb http://x \x7b\x7bauth\x7d\x7d main\n"
        [("auth", "user:pass")]
      = "deb http://x user:pass main\n"
    ∧ ("deb http://x \x7b\x7bauth\x7d\x7d main\n" : String)
        ≠ "deb http://x user:pass main\n" := by
  refine ⟨rfl, rfl, ?_⟩
  decide

/-- C6 witness: the amended theorem at a concrete pulled file, a
config-provided repository line with a placeholder, and a replace-only
invocation. -/
theorem c6_witness :
    compute_sources "cur\n" [] ["deb http://y \x7b\x7b auth \x7d\x7d main"]
        [("auth", "u:p")]
      = some "cur\n\ndeb http://y u:p main\n"
    ∧ compute_sources "cur\n" ["deb \x7b\x7bauth\x7d\x7d"] []
        [("auth", "u:p")]
      = some "deb \x7b\x7bauth\x7d\x7d\n" := by
  constructor
  · exact ((c6_secrets_rendering "cur\n" []
      ["deb http://y \x7b\x7b auth \x7d\x7d main"] [("auth", "u:p")]
      (by simp)).1 (by simp)).trans (by rfl)
  · exact ((c6_secrets_rendering "cur\n" ["deb \x7b\x7bauth\x7d\x7d"] []
      [("auth", "u:p")] (by simp)).2 rfl (by simp)).trans (by rfl)

/-! ## C3: stage failure handling in the pipeline loop -/

theorem runStageJobs_all_ok (runJob : String → Except String Unit) (n : Nat) :
    ∀ (s : List String) (f : Bool), (∀ j ∈ s, runJob j = .ok ()) →
    runStageJobs runJob n s f = (.ok f, s) := by
  intro s
  induction s with
  | nil =>
    intro f _
    rfl
  | cons j rest ih =>
    intro f h
    have hj := h j (List.mem_cons_self _ _)
    have hr := ih f (fun x hx => h x (List.mem_cons_of_mem _ hx))
    simp [runStageJobs, hj, hr]

theorem runStageJobs_multi (runJob : String → Except String Unit) (n : Nat)
    (hn : n ≠ 1) : ∀ (s : List String) (f : Bool),
    ∃ f2, runStageJobs runJob n s f = (.ok f2, s)
      ∧ (f2 = true ↔ f = true ∨ ∃ j ∈ s, ∃ e, runJob j = .error e) := by
  intro s
  induction s with
  | nil =>
    intro f
    exact ⟨f, rfl, by simp⟩
  | cons j rest ih =>
    intro f
    cases hj : runJob j with
    | ok u =>
      obtain ⟨f2, heq, hiff⟩ := ih f
      refine ⟨f2, by simp [runStageJobs, hj, heq], ?_⟩
      rw [hiff]
      constructor
      · rintro (hf | ⟨j2, hj2, e, he⟩)
        · exact Or.inl hf
        · exact Or.inr ⟨j2, List.mem_cons_of_mem _ hj2, e, he⟩
      · rintro (hf | ⟨j2, hj2, e, he⟩)
        · exact Or.inl hf
        · rcases List.mem_cons.mp hj2 with rfl | hmem
          · rw [hj] at he
            cases he
          · exact Or.inr ⟨j2, hmem, e, he⟩
    | error e0 =>
      obtain ⟨f2, heq, hiff⟩ := ih true
      refine ⟨f2, by simp [runStageJobs, hj, hn, heq], ?_⟩
      constructor
      · intro _
        exact Or.inr ⟨j, List.mem_cons_self _ _, e0, hj⟩
      · intro _
        exact hiff.mpr (Or.inl rfl)

theorem run_pipeline_ok_stages (runJob : String → Except String Unit) :
    ∀ (pre rest : List (List String)),
    (∀ s ∈ pre, ∀ j ∈ s, runJob j = .ok ()) →
    run_pipeline runJob (pre ++ rest)
      = ((run_pipeline runJob rest).1,
          pre.flatten ++ (run_pipeline runJob rest).2) := by
  intro pre
  induction pre with
  | nil =>
    intro rest _
    simp
  | cons s pres ih =>
    intro rest h
    have hs := h s (List.mem_cons_self _ _)
    have hpre := fun s2 hs2 => h s2 (List.mem_cons_of_mem _ hs2)
    have hstage := runStageJobs_all_ok runJob s.length s false hs
    simp [run_pipeline, hstage, ih rest hpre]

/-- C3: in a stage of at least two jobs reached after fully successful
stages, a command failure in some job still lets every job of the stage be
attempted, the pipeline then stops with the combined
`Some jobs in <stage> failed; stopping.` error, and no job of a later
stage is attempted; a single-job stage re-raises the job's original error
unchanged. -/
theorem c3_stage_failure_handling (runJob : String → Except String Unit)
    (pre : List (List String)) (stage : List String)
    (post : List (List String))
    (hpre : ∀ s ∈ pre, ∀ j ∈ s, runJob j = .ok ()) :
    (2 ≤ stage.length → (∃ j ∈ stage, ∃ e, runJob j = .error e) →
      run_pipeline runJob (pre ++ stage :: post)
        = (.error (combinedStageError stage), pre.flatten ++ stage))
    ∧ (∀ j e, stage = [j] → runJob j = .error e →
      run_pipeline runJob (pre ++ stage :: post)
        = (.error e, pre.flatten ++ [j])) := by
  constructor
  · intro hlen hfail
    rw [run_pipeline_ok_stages runJob pre (stage :: post) hpre]
    have hn : stage.length ≠ 1 := by omega
    obtain ⟨f2, heq, hiff⟩ :=
      runStageJobs_multi runJob stage.length hn stage false
    have hf2 : f2 = true := hiff.mpr (Or.inr hfail)
    subst hf2
    simp [run_pipeline, heq]
  · intro j e hstage herr
    subst hstage
    rw [run_pipeline_ok_stages runJob pre ([j] :: post) hpre]
    simp [run_pipeline, runStageJobs, herr]

/-- C3 witness: a two-job stage with a failing `lint` job aborts with the
combined error after attempting both jobs and never reaches the next
stage; a single-job stage re-raises the original error. -/
theorem c3_witness :
    run_pipeline (fun j => if j = "lint" then .error "boom" else .ok ())
        [["lint", "test"], ["build"]]
      = (.error "Some jobs in [\x27lint\x27, \x27test\x27] failed; stopping.",
          ["lint", "test"])
    ∧ run_pipeline (fun j => if j = "lint" then .error "boom" else .ok ())
        [["lint"], ["build"]]
      = (.error "boom", ["lint"]) := by
  constructor
  · exact ((c3_stage_failure_handling
      (fun j => if j = "lint" then .error "boom" else .ok ())
      [] ["lint", "test"] [["build"]] (by simp)).1 (by simp)
      ⟨"lint", by simp, "boom", by simp⟩).trans (by rfl)
  · exact ((c3_stage_failure_handling
      (fun j => if j = "lint" then .error "boom" else .ok ())
      [] ["lint"] [["build"]] (by simp)).2 "lint" "boom" rfl
      (by simp)).trans (by rfl)

/-! ## C2: safety of output-path copy-out -/

theorem mem_insertSorted (x a : PurePath) :
    ∀ l, a ∈ insertSorted x l ↔ a = x ∨ a ∈ l := by
  intro l
  induction l with
  | nil => simp [insertSorted]
  | cons y ys ih =>
    by_cases hle : pathKey x ≤ pathKey y
    · simp [insertSorted, hle]
    · simp only [insertSorted, if_neg hle, List.mem_cons, ih]
      constructor
      · rintro (h | h | h)
        · exact Or.inr (Or.inl h)
        · exact Or.inl h
        · exact Or.inr (Or.inr h)
      · rintro (h | h | h)
        · exact Or.inr (Or.inl h)
        · exact Or.inl h
        · exact Or.inr (Or.inr h)

theorem mem_sortPaths (a : PurePath) : ∀ l, a ∈ sortPaths l ↔ a ∈ l := by
  intro l
  induction l with
  | nil => simp [sortPaths]
  | cons x xs ih =>
    rw [show sortPaths (x :: xs) = insertSorted x (sortPaths xs) from rfl,
      mem_insertSorted, ih]
    simp

theorem mapME_ok_mem {ε α β : Type} (f : α → Except ε β) :
    ∀ {l : List α} {ys : List β}, mapME f l = .ok ys →
      ∀ y ∈ ys, ∃ x ∈ l, f x = .ok y := by
  intro l
  induction l with
  | nil =>
    intro ys h y hy
    cases h
    cases hy
  | cons x xs ih =>
    intro ys h y hy
    cases hfx : f x with
    | error e =>
      rw [show mapME f (x :: xs)
          = match f x with
            | .error e => .error e
            | .ok y =>
              match mapME f xs with
              | .error e => .error e
              | .ok ys => .ok (y :: ys) from rfl, hfx] at h
      cases h
    | ok y0 =>
      rw [show mapME f (x :: xs)
          = match f x with
            | .error e => .error e
            | .ok y =>
              match mapME f xs with
              | .error e => .error e
              | .ok ys => .ok (y :: ys) from rfl, hfx] at h
      cases hrec : mapME f xs with
      | error e =>
        rw [hrec] at h
        cases h
      | ok ys0 =>
        rw [hrec] at h
        cases h
        rcases List.mem_cons.mp hy with rfl | hmem
        · exact ⟨x, List.mem_cons_self _ _, hfx⟩
        · obtain ⟨x2, hx2, h2⟩ := ih hrec y hmem
          exact ⟨x2, List.mem_cons_of_mem _ hx2, h2⟩

theorem mapME_ok_forall {ε α β : Type} (f : α → Except ε β) :
    ∀ {l : List α} {ys : List β}, mapME f l = .ok ys →
      ∀ x ∈ l, ∃ y, f x = .ok y := by
  intro l
  induction l with
  | nil =>
    intro ys _ x hx
    cases hx
  | cons x xs ih =>
    intro ys h x2 hx2
    cases hfx : f x with
    | error e =>
      rw [show mapME f (x :: xs)
          = match f x with
            | .error e => .error e
            | .ok y =>
              match mapME f xs with
              | .error e => .error e
              | .ok ys => .ok (y :: ys) from rfl, hfx] at h
      cases h
    | ok y0 =>
      rw [show mapME f (x :: xs)
          = match f x with
            | .error e => .error e
            | .ok y =>
              match mapME f xs with
              | .error e => .error e
              | .ok ys => .ok (y :: ys) from rfl, hfx] at h
      cases hrec : mapME f xs with
      | error e =>
        rw [hrec] at h
        cases h
      | ok ys0 =>
        rcases List.mem_cons.mp hx2 with rfl | hmem
        · exact ⟨y0, hfx⟩
        · exact ih hrec x2 hmem

theorem dropPrefixParts_append : ∀ (b r : List String),
    dropPrefixParts b (b ++ r) = some r := by
  intro b r
  induction b with
  | nil => rfl
  | cons x xs ih => simpa [dropPrefixParts] using ih

theorem dropPrefixParts_some : ∀ {b p r : List String},
    dropPrefixParts b p = some r → p = b ++ r := by
  intro b
  induction b with
  | nil =>
    intro p r h
    cases h
    rfl
  | cons x xs ih =>
    intro p r h
    cases p with
    | nil => cases h
    | cons y ys =>
      by_cases hxy : x = y
      · simp only [dropPrefixParts, if_pos hxy] at h
        rw [List.cons_append, ← hxy, ih h]
      · simp only [dropPrefixParts, if_neg hxy] at h
        cases h

theorem relative_to_spec {p base rel : PurePath}
    (h : p.relative_to base = some rel) :
    rel.absolute = false ∧ p.absolute = base.absolute
      ∧ p.parts = base.parts ++ rel.parts := by
  unfold PurePath.relative_to at h
  by_cases hab : p.absolute = base.absolute
  · rw [if_pos hab] at h
    cases hdp : dropPrefixParts base.parts p.parts with
    | none =>
      rw [hdp] at h
      cases h
    | some r =>
      rw [hdp] at h
      simp only [Option.map_some'] at h
      cases h
      exact ⟨rfl, hab, dropPrefixParts_some hdp⟩
  · rw [if_neg hab] at h
    cases h

theorem relative_to_pjoin (b q : PurePath) (hq : q.absolute = false) :
    (pjoin b q).relative_to b = some ⟨false, q.parts⟩ := by
  unfold pjoin
  rw [hq]
  simp only [Bool.false_eq_true, if_false]
  unfold PurePath.relative_to
  simp [dropPrefixParts_append]

theorem purePath_mk_eq {p : PurePath} {a : Bool} {ps : List String}
    (h1 : p.absolute = a) (h2 : p.parts = ps) : p = ⟨a, ps⟩ := by
  cases p
  simp only at h1 h2
  rw [h1, h2]

theorem copyStep_ok {remote_cwd target_path p : PurePath}
    {pr : PurePath × PurePath}
    (h : copyStep remote_cwd target_path p = .ok pr) :
    ∃ rel, p.relative_to remote_cwd.parent = some rel
      ∧ pr = (p, pjoin (pjoin target_path (parsePath "files"))
          (remove_prefix_if_possible rel remote_cwd.name)) := by
  unfold copyStep check_relative_path at h
  cases hrel : p.relative_to remote_cwd.parent with
  | none =>
    rw [hrel] at h
    simp only [Except.map] at h
    cases h
  | some rel =>
    rw [hrel] at h
    simp only [Except.map] at h
    cases h
    exact ⟨rel, rfl, rfl⟩

/-- C2: in every copy-out run that completes without error, each file
pulled from the container is (after symlink resolution) a listed file of
the parent of the build tree, anchored there; every destination path on
the host is lexically under `<target>/files/` with no upward component;
every configured pattern passed the lexical containment pre-check; and
every resolved glob match passed the post-resolution containment check
(an escaping path would instead have raised a fatal error).  The
hypotheses embed the container's guarantees: `readlink -f` output is
canonical, and a canonical path below the parent of the build tree is one
of the files `find` listed there. -/
theorem c2_copy_output_paths_safety (patterns : List String)
    (remote_cwd target_path : PurePath) (listFiles : List PurePath)
    (resolveFn : PurePath → PurePath)
    (hres : ∀ p, ∀ c ∈ (resolveFn p).parts, c ≠ "..")
    (hresfiles : ∀ p rel,
      (resolveFn p).relative_to remote_cwd.parent = some rel →
      rel ∈ listFiles) :
    ∀ pulls, copy_output_paths patterns remote_cwd listFiles resolveFn
        target_path = .ok pulls →
      (∀ pr ∈ pulls,
        (∃ q ∈ listFiles, pr.1 = pjoin remote_cwd.parent q)
        ∧ ∃ r, pr.2.relative_to (pjoin target_path (parsePath "files"))
              = some r
            ∧ ∀ c ∈ r.parts, c ≠ "..")
      ∧ (∀ pat ∈ patterns,
          ((pjoin remote_cwd (parsePath pat)).normpath).relative_to
            remote_cwd.parent ≠ none)
      ∧ (∀ filtered, filteredOf patterns (sortPaths listFiles)
            remote_cwd.name = .ok filtered →
          ∀ p ∈ resolvedOf filtered remote_cwd resolveFn,
            p.relative_to remote_cwd.parent ≠ none) := by
  intro pulls hok
  cases hpc : patternsCheck patterns remote_cwd with
  | error e =>
    rw [show copy_output_paths patterns remote_cwd listFiles resolveFn
        target_path
        = match patternsCheck patterns remote_cwd with
          | .error e => .error e
          | .ok _ =>
            match filteredOf patterns (sortPaths listFiles)
                remote_cwd.name with
            | .error e => .error e
            | .ok filtered =>
              mapME (copyStep remote_cwd target_path)
                (resolvedOf filtered remote_cwd resolveFn) from rfl,
      hpc] at hok
    cases hok
  | ok u =>
    cases hflt : filteredOf patterns (sortPaths listFiles)
        remote_cwd.name with
    | error e =>
      rw [show copy_output_paths patterns remote_cwd listFiles resolveFn
          target_path
          = match patternsCheck patterns remote_cwd with
            | .error e => .error e
            | .ok _ =>
              match filteredOf patterns (sortPaths listFiles)
                  remote_cwd.name with
              | .error e => .error e
              | .ok filtered =>
                mapME (copyStep remote_cwd target_path)
                  (resolvedOf filtered remote_cwd resolveFn) from rfl,
        hpc, hflt] at hok
      cases hok
    | ok filtered =>
      have hmap : mapME (copyStep remote_cwd target_path)
          (resolvedOf filtered remote_cwd resolveFn) = .ok pulls := by
        rw [show copy_output_paths patterns remote_cwd listFiles resolveFn
            target_path
            = match patternsCheck patterns remote_cwd with
              | .error e => .error e
              | .ok _ =>
                match filteredOf patterns (sortPaths listFiles)
                    remote_cwd.name with
                | .error e => .error e
                | .ok filtered =>
                  mapME (copyStep remote_cwd target_path)
                    (resolvedOf filtered remote_cwd resolveFn) from rfl,
          hpc, hflt] at hok
        exact hok
      refine ⟨?_, ?_, ?_⟩
      · intro pr hpr
        obtain ⟨p, hp, hstep⟩ := mapME_ok_mem _ hmap pr hpr
        have hpform : ∃ q1, p = resolveFn (pjoin remote_cwd q1) := by
          unfold resolvedOf at hp
          rw [mem_sortPaths] at hp
          obtain ⟨q1, _, heq⟩ := List.mem_map.mp hp
          exact ⟨q1, heq.symm⟩
        obtain ⟨q1, rfl⟩ := hpform
        obtain ⟨rel, hrel, hpr2⟩ := copyStep_ok hstep
        subst hpr2
        obtain ⟨hrabs, habs, hparts⟩ := relative_to_spec hrel
        have hpres : ∀ c ∈ (resolveFn (pjoin remote_cwd q1)).parts,
            c ≠ ".." := hres _
        constructor
        · refine ⟨rel, hresfiles _ rel hrel, ?_⟩
          show resolveFn (pjoin remote_cwd q1) = pjoin remote_cwd.parent rel
          unfold pjoin
          rw [hrabs]
          simp only [Bool.false_eq_true, if_false]
          exact purePath_mk_eq habs hparts
        · have hrpabs :
              (remove_prefix_if_possible rel remote_cwd.name).absolute
                = false := by
            unfold remove_prefix_if_possible
            cases h2 : rel.relative_to ⟨false, [remote_cwd.name]⟩ with
            | none => exact hrabs
            | some r2 => exact (relative_to_spec h2).1
          have hrpparts : ∀ c ∈
              (remove_prefix_if_possible rel remote_cwd.name).parts,
              c ∈ rel.parts := by
            unfold remove_prefix_if_possible
            cases h2 : rel.relative_to ⟨false, [remote_cwd.name]⟩ with
            | none => exact fun c hc => hc
            | some r2 =>
              intro c hc
              have hspec := (relative_to_spec h2).2.2
              rw [hspec]
              exact List.mem_append_right _ hc
          refine ⟨⟨false,
            (remove_prefix_if_possible rel remote_cwd.name).parts⟩, ?_, ?_⟩
          · exact relative_to_pjoin (pjoin target_path (parsePath "files"))
              (remove_prefix_if_possible rel remote_cwd.name) hrpabs
          · intro c hc
            simp only at hc
            have hcrel := hrpparts c hc
            have hcp : c ∈ (resolveFn (pjoin remote_cwd q1)).parts := by
              rw [hparts]
              exact List.mem_append_right _ hcrel
            exact hpres c hcp
      · intro pat hpat
        have hmex : ∃ ys, mapME (fun pat2 =>
            check_relative_path (pjoin remote_cwd (parsePath pat2)).normpath
              remote_cwd.parent) patterns = .ok ys := by
          unfold patternsCheck at hpc
          cases hm : mapME (fun pat2 => check_relative_path
              (pjoin remote_cwd (parsePath pat2)).normpath
              remote_cwd.parent) patterns with
          | error e =>
            rw [hm] at hpc
            simp only [Except.map] at hpc
            cases hpc
          | ok ys => exact ⟨ys, rfl⟩
        obtain ⟨ys, hm⟩ := hmex
        obtain ⟨y, hy⟩ := mapME_ok_forall _ hm pat hpat
        intro hcon
        unfold check_relative_path at hy
        rw [hcon] at hy
        cases hy
      · intro filtered2 hflt2 p hp
        cases hflt2
        obtain ⟨y, hy⟩ := mapME_ok_forall _ hmap p hp
        intro hcon
        unfold copyStep check_relative_path at hy
        rw [hcon] at hy
        simp only [Except.map] at hy
        cases hy

/-- C2 witness: a concrete copy-out of `*.txt` from a build tree at
`/build/lpci/project` with one listed file, pulled to
`/out/build/0/files/a.txt`; the safety theorem applies with a constant
resolution function. -/
theorem c2_witness :
    copy_output_paths ["*.txt"] ⟨true, ["build", "lpci", "project"]⟩
        [⟨false, ["project", "a.txt"]⟩]
        (fun _ => ⟨true, ["build", "lpci", "project", "a.txt"]⟩)
        ⟨true, ["out", "build", "0"]⟩
      = .ok [(⟨true, ["build", "lpci", "project", "a.txt"]⟩,
          ⟨true, ["out", "build", "0", "files", "a.txt"]⟩)]
    ∧ (∃ q ∈ [(⟨false, ["project", "a.txt"]⟩ : PurePath)],
        (⟨true, ["build", "lpci", "project", "a.txt"]⟩ : PurePath)
          = pjoin (PurePath.parent ⟨true, ["build", "lpci", "project"]⟩) q)
    ∧ (∃ r, (⟨true, ["out", "build", "0", "files", "a.txt"]⟩ :
          PurePath).relative_to
            (pjoin ⟨true, ["out", "build", "0"]⟩ (parsePath "files"))
          = some r
        ∧ ∀ c ∈ r.parts, c ≠ "..") := by
  have h1 : copy_output_paths ["*.txt"]
      ⟨true, ["build", "lpci", "project"]⟩
      [⟨false, ["project", "a.txt"]⟩]
      (fun _ => ⟨true, ["build", "lpci", "project", "a.txt"]⟩)
      ⟨true, ["out", "build", "0"]⟩
      = .ok [(⟨true, ["build", "lpci", "project", "a.txt"]⟩,
          ⟨true, ["out", "build", "0", "files", "a.txt"]⟩)] := by rfl
  have H := c2_copy_output_paths_safety ["*.txt"]
    ⟨true, ["build", "lpci", "project"]⟩ ⟨true, ["out", "build", "0"]⟩
    [⟨false, ["project", "a.txt"]⟩]
    (fun _ => ⟨true, ["build", "lpci", "project", "a.txt"]⟩)
    (by
      intro p c hc
      simp only [List.mem_cons, List.not_mem_nil, or_false] at hc
      rcases hc with rfl | rfl | rfl | rfl <;> decide)
    (by
      intro p rel h
      have h2 := (show PurePath.relative_to
          (⟨true, ["build", "lpci", "project", "a.txt"]⟩ : PurePath)
          (PurePath.parent ⟨true, ["build", "lpci", "project"]⟩)
          = some ⟨false, ["project", "a.txt"]⟩ from rfl).symm.trans h
      injection h2 with h3
      rw [← h3]
      exact List.mem_singleton.mpr rfl)
    [(⟨true, ["build", "lpci", "project", "a.txt"]⟩,
      ⟨true, ["out", "build", "0", "files", "a.txt"]⟩)] h1
  have hpr := H.1 (⟨true, ["build", "lpci", "project", "a.txt"]⟩,
    ⟨true, ["out", "build", "0", "files", "a.txt"]⟩)
    (List.mem_singleton.mpr rfl)
  exact ⟨h1, hpr.1, hpr.2⟩

end LpciProof
